import Mathlib

/-!
Verification development for the `unified-shell` (ushell) sources.

Each C function relevant to the checked claims is embedded as an executable
Lean definition working over `List Char` / `String` / `Nat` / `Int`.  The
definitions follow the C control flow; machine-level aspects that the claims
do not touch (signed 32-bit overflow, which is UB in C, and byte-level
treatment of non-ASCII input) are modelled by unbounded `Int` and Unicode
`Char` with the C character classes restricted to their ASCII ranges.
-/

namespace UShell

/-! ## Character classes (ASCII, as used by the C sources) -/

/-- C `is_delimiter` from `src/evaluator/executor.c`: space, tab or newline. -/
def isDelim (c : Char) : Bool :=
  c.toNat = 32 || c.toNat = 9 || c.toNat = 10

/-- C `isspace` (default locale, ASCII): space, \t, \n, \v, \f, \r. -/
def isSpaceC (c : Char) : Bool :=
  c.toNat = 32 || (9 ≤ c.toNat && c.toNat ≤ 13)

/-- C `isdigit` restricted to ASCII. -/
def isDigitC (c : Char) : Bool :=
  48 ≤ c.toNat && c.toNat ≤ 57

/-- C `isalpha` restricted to ASCII. -/
def isAlphaC (c : Char) : Bool :=
  (65 ≤ c.toNat && c.toNat ≤ 90) || (97 ≤ c.toNat && c.toNat ≤ 122)

/-- C `isalnum` restricted to ASCII. -/
def isAlnumC (c : Char) : Bool :=
  isAlphaC c || isDigitC c

/-- Characters accepted inside a variable name by the expander and the
arithmetic evaluator: `isalnum(c) || c == '_'`. -/
def isNameChar (c : Char) : Bool :=
  isAlnumC c || c.toNat = 95

/-! ## Small list lemmas used by the termination and scan proofs -/

theorem dropWhile_length_le (p : Char → Bool) :
    ∀ l : List Char, (l.dropWhile p).length ≤ l.length := by
  intro l
  induction l with
  | nil => simp [List.dropWhile]
  | cons c cs ih =>
    by_cases h : p c
    · simp [List.dropWhile, h]
      omega
    · simp [List.dropWhile, h]

theorem mem_of_mem_dropWhile (p : Char → Bool) :
    ∀ (l : List Char) (x : Char), x ∈ l.dropWhile p → x ∈ l := by
  intro l
  induction l with
  | nil => intro x h; simp [List.dropWhile] at h
  | cons c cs ih =>
    intro x h
    by_cases hc : p c
    · simp [List.dropWhile, hc] at h
      exact List.mem_cons_of_mem _ (ih x h)
    · simpa [List.dropWhile, hc] using h

theorem dropWhile_append_pivot (p : Char → Bool) (piv : Char) (hp : p piv = false) :
    ∀ (xs ys : List Char),
      List.dropWhile p (xs ++ piv :: ys) = List.dropWhile p xs ++ piv :: ys := by
  intro xs ys
  induction xs with
  | nil => simp [List.dropWhile, hp]
  | cons c cs ih =>
    by_cases hc : p c
    · simpa [List.dropWhile, hc] using ih
    · simp [List.dropWhile, hc]

theorem takeWhile_append_pivot (p : Char → Bool) (piv : Char) (hp : p piv = false) :
    ∀ (xs ys : List Char),
      List.takeWhile p (xs ++ piv :: ys) = List.takeWhile p xs := by
  intro xs ys
  induction xs with
  | nil => simp [List.takeWhile, hp]
  | cons c cs ih =>
    by_cases hc : p c
    · simpa [List.takeWhile, hc] using ih
    · simp [List.takeWhile, hc]

theorem dropWhile_isSuffix (p : Char → Bool) :
    ∀ l : List Char, (l.dropWhile p) <:+ l := by
  intro l
  induction l with
  | nil => simp [List.dropWhile]
  | cons c cs ih =>
    by_cases hc : p c
    · simp only [List.dropWhile, hc]
      exact ih.trans (List.suffix_cons c cs)
    · simp [List.dropWhile, hc]

/-! ## Environment store — `src/src/evaluator/environment.c`

The store is an insertion-ordered list of bindings, bounded at
`MAX_VARS = 100` (`include/environment.h`).  `env_get` falls back to the
ambient process environment (`getenv`), modelled as an abstract lookup
function. -/

def MAX_VARS : Nat := 100

structure Binding where
  name : String
  value : String
deriving DecidableEq, Repr

structure Env where
  bindings : List Binding
deriving DecidableEq, Repr

/-- `env_get`: scan the internal bindings in order, fall back to `getenv`. -/
def env_get (ambient : String → Option String) (env : Env) (name : String) :
    Option String :=
  match env.bindings.find? (fun b => b.name = name) with
  | some b => some b.value
  | none => ambient name

/-- Update the first binding with the given name, if any (the update loop of
`env_set`). -/
def setFirst (name value : String) : List Binding → Option (List Binding)
  | [] => none
  | b :: bs =>
    if b.name = name then some ({ name := b.name, value := value } :: bs)
    else (setFirst name value bs).map (b :: ·)

/-- `env_set`: update in place if the name exists, otherwise append a new
binding — unless the store already holds `MAX_VARS` entries, in which case
the call prints a diagnostic and leaves the store unchanged. -/
def env_set (env : Env) (name value : String) : Env :=
  match setFirst name value env.bindings with
  | some bs => ⟨bs⟩
  | none =>
    if env.bindings.length ≥ MAX_VARS then env
    else ⟨env.bindings ++ [⟨name, value⟩]⟩

/-- `env_unset`: remove the first binding with the given name. -/
def env_unset (env : Env) (name : String) : Env :=
  match env.bindings.find? (fun b => b.name = name) with
  | some _ => ⟨(env.bindings.takeWhile (fun b => b.name ≠ name)) ++
      (env.bindings.dropWhile (fun b => b.name ≠ name)).tail⟩
  | none => env

/-- Enumeration order of the store (`env_print` / `set` with no arguments):
the binding names in insertion order. -/
def env_enumerate (env : Env) : List String :=
  env.bindings.map (·.name)

/-! ## Arithmetic evaluator — `src/unified-shell/src/evaluator/arithmetic.c`

A recursive-descent parser over the expression string.  The C parser has no
explicit fuel; here every mutually recursive call consumes one unit of fuel,
and `eval_arithmetic` supplies more fuel than the input length can consume
(each grammar step advances the position).  C `int` arithmetic is modelled
by `Int` with C truncating division (`Int.tdiv` / `Int.tmod`); signed
overflow, which is undefined behaviour in C, is not modelled.  Diagnostics
printed to stderr are collected in the `diags` field. -/

structure ArithRes where
  val : Int
  rest : List Char
  diags : List String
deriving DecidableEq, Repr

/-- `skip_whitespace`. -/
def skipWs (cs : List Char) : List Char := cs.dropWhile isSpaceC

def digitsToInt (ds : List Char) : Int :=
  ds.foldl (fun a c => a * 10 + Int.ofNat (c.toNat - 48)) 0

/-- `parse_number`: optional sign, then a digit run; yields 0 when no digit
follows (the sign, if any, stays consumed). -/
def parse_number (cs : List Char) : Int × List Char :=
  let cs0 := skipWs cs
  let signed : Bool × List Char :=
    match cs0 with
    | '-' :: r => (true, r)
    | '+' :: r => (false, r)
    | _ => (false, cs0)
  let v := digitsToInt (signed.2.takeWhile isDigitC)
  ((if signed.1 then -v else v), signed.2.dropWhile isDigitC)

/-- C `atoi`: leading whitespace, optional sign, digit run, 0 otherwise. -/
def atoiC (s : String) : Int := (parse_number s.toList).1

/-- `parse_variable`: optional `$`, then a name of `isalnum`/`_` characters
(stored capped at 255 bytes); the value is looked up and converted with
`atoi`.  A missing name or an unbound variable yields 0 with a diagnostic. -/
def parse_variable (env : String → Option String) (cs : List Char) : ArithRes :=
  let cs0 := skipWs cs
  let cs1 := match cs0 with
    | '$' :: r => r
    | _ => cs0
  let nameCs := (cs1.takeWhile isNameChar).take 255
  let rest := cs1.dropWhile isNameChar
  if nameCs.isEmpty then
    ⟨0, rest, ["arithmetic: expected variable name"]⟩
  else
    match env nameCs.asString with
    | none => ⟨0, rest, ["arithmetic: undefined variable: " ++ nameCs.asString]⟩
    | some v => ⟨atoiC v, rest, []⟩

mutual

/-- `parse_factor`: parenthesised expression, variable, or number. -/
def parse_factor (env : String → Option String) : Nat → List Char → ArithRes
  | 0, cs => ⟨0, cs, []⟩
  | fuel + 1, cs =>
    let cs0 := skipWs cs
    match cs0 with
    | '(' :: r =>
      let e := parse_expr env fuel r
      let r2 := skipWs e.rest
      match r2 with
      | ')' :: r3 => ⟨e.val, r3, e.diags⟩
      | _ => ⟨e.val, r2, e.diags ++ ["arithmetic: expected closing paren"]⟩
    | c :: _ =>
      if c = '$' || isAlphaC c || c = '_' then parse_variable env cs0
      else
        let n := parse_number cs0
        ⟨n.1, n.2, []⟩
    | [] =>
      let n := parse_number cs0
      ⟨n.1, n.2, []⟩

/-- `parse_term`: a factor followed by the `* / %` loop. -/
def parse_term (env : String → Option String) : Nat → List Char → ArithRes
  | 0, cs => ⟨0, cs, []⟩
  | fuel + 1, cs =>
    let f := parse_factor env fuel cs
    termLoop env fuel f.val f.rest f.diags

/-- The `while` loop of `parse_term`.  On a zero right operand of `/` or `%`
the C code prints a diagnostic and returns 0 from `parse_term` at once. -/
def termLoop (env : String → Option String) :
    Nat → Int → List Char → List String → ArithRes
  | 0, left, cs, ds => ⟨left, cs, ds⟩
  | fuel + 1, left, cs, ds =>
    let cs1 := skipWs cs
    match cs1 with
    | '*' :: r =>
      let f := parse_factor env fuel r
      termLoop env fuel (left * f.val) f.rest (ds ++ f.diags)
    | '/' :: r =>
      let f := parse_factor env fuel r
      if f.val = 0 then ⟨0, f.rest, ds ++ f.diags ++ ["arithmetic: division by zero"]⟩
      else termLoop env fuel (Int.tdiv left f.val) f.rest (ds ++ f.diags)
    | '%' :: r =>
      let f := parse_factor env fuel r
      if f.val = 0 then ⟨0, f.rest, ds ++ f.diags ++ ["arithmetic: modulo by zero"]⟩
      else termLoop env fuel (Int.tmod left f.val) f.rest (ds ++ f.diags)
    | _ => ⟨left, cs1, ds⟩

/-- `parse_expr`: a term followed by the `+ -` loop. -/
def parse_expr (env : String → Option String) : Nat → List Char → ArithRes
  | 0, cs => ⟨0, cs, []⟩
  | fuel + 1, cs =>
    let t := parse_term env fuel cs
    exprLoop env fuel t.val t.rest t.diags

/-- The `while` loop of `parse_expr`. -/
def exprLoop (env : String → Option String) :
    Nat → Int → List Char → List String → ArithRes
  | 0, left, cs, ds => ⟨left, cs, ds⟩
  | fuel + 1, left, cs, ds =>
    let cs1 := skipWs cs
    match cs1 with
    | '+' :: r =>
      let t := parse_term env fuel r
      exprLoop env fuel (left + t.val) t.rest (ds ++ t.diags)
    | '-' :: r =>
      let t := parse_term env fuel r
      exprLoop env fuel (left - t.val) t.rest (ds ++ t.diags)
    | _ => ⟨left, cs1, ds⟩

end

/-- `eval_arithmetic`: run `parse_expr` on the whole string; any text left
over draws an additional diagnostic.  The fuel exceeds what any derivation
over the input can consume, so the C behaviour is reproduced exactly. -/
def eval_arithmetic (env : String → Option String) (s : String) : ArithRes :=
  let cs := s.toList
  let r := parse_expr env (4 * (cs.length + 1)) cs
  let rest := skipWs r.rest
  if rest.isEmpty then ⟨r.val, rest, r.diags⟩
  else ⟨r.val, rest, r.diags ++ ["arithmetic: unexpected character"]⟩

/-! ## Expander — `src/src/utils/expansion.c`

`expand_variables` walks the input once; on `$` it recognises, in order,
`$((expr))`, `${name}` and `$name`, where a name is a run of `isalnum`/`_`
characters (at most 255 are kept).  The environment lookup (`env_get`
including its `getenv` fallback) is abstracted as `env : String → Option
String`; an absent name contributes nothing to the output. -/

/-- The `$((...))` scanner: copy characters until a `))` is seen at paren
depth 0 (the two closing parens are consumed); an unterminated expression
runs to the end of the input.  Returns (expression text, remaining input). -/
def extractArith : Int → List Char → List Char × List Char
  | _, [] => ([], [])
  | depth, c :: rest =>
    if c = ')' ∧ rest.head? = some ')' ∧ depth = 0 then
      ([], rest.tail)
    else
      let d := if c = '(' then depth + 1 else if c = ')' then depth - 1 else depth
      let er := extractArith d rest
      (c :: er.1, er.2)

theorem extractArith_rest_length :
    ∀ (d : Int) (cs : List Char), (extractArith d cs).2.length ≤ cs.length := by
  intro d cs
  induction cs generalizing d with
  | nil => simp [extractArith]
  | cons c rest ih =>
    by_cases h : c = ')' ∧ rest.head? = some ')' ∧ d = 0
    · simp only [extractArith, if_pos h]
      have : rest.tail.length ≤ rest.length := by
        cases rest <;> simp
      simpa using Nat.le_succ_of_le this
    · simp only [extractArith, if_neg h]
      exact Nat.le_succ_of_le (ih _)

/-- The body of `expand_variables`, on character lists.  On `$` the C code
recognises, in order, `$((` (arithmetic), `${` (braced name), and a plain
name run; a `$` followed by no name characters looks up the empty name,
which contributes nothing. -/
def expandChars (env : String → Option String) : List Char → List Char
  | [] => []
  | c :: rest =>
    if c = '$' then
      if rest.head? = some '(' && rest.tail.head? = some '(' then
        (toString (eval_arithmetic env
            (((extractArith 0 rest.tail.tail).1.take 511).asString)).val).toList
          ++ expandChars env (extractArith 0 rest.tail.tail).2
      else if rest.head? = some '{' then
        ((env (((rest.tail.takeWhile isNameChar).take 255).asString)).getD "").toList
          ++ expandChars env
              (if (rest.tail.dropWhile isNameChar).head? = some '}'
               then (rest.tail.dropWhile isNameChar).tail
               else rest.tail.dropWhile isNameChar)
      else
        ((env (((rest.takeWhile isNameChar).take 255).asString)).getD "").toList
          ++ expandChars env (rest.dropWhile isNameChar)
    else c :: expandChars env rest
termination_by cs => cs.length
decreasing_by
  · have h := extractArith_rest_length 0 rest.tail.tail
    have h1 : rest.tail.tail.length ≤ rest.length := by
      cases rest with
      | nil => simp
      | cons a t =>
        cases t <;> simp
        omega
    simp only [List.length_cons]
    omega
  · have h := dropWhile_length_le isNameChar rest.tail
    have h1 : rest.tail.length ≤ rest.length := by cases rest <;> simp
    have h2 : ((rest.tail.dropWhile isNameChar).tail).length ≤
        (rest.tail.dropWhile isNameChar).length := by
      cases rest.tail.dropWhile isNameChar <;> simp
    split <;> simp only [List.length_cons] <;> omega
  · have h := dropWhile_length_le isNameChar rest
    simp only [List.length_cons]
    omega
  · simp only [List.length_cons]
    omega

/-- `expand_variables` on strings. -/
def expand_variables (env : String → Option String) (s : String) : String :=
  (expandChars env s.toList).asString

/-! ## Glob matcher — `src/src/glob/glob.c`

The directory scan (`opendir(".")`/`readdir`) is modelled by passing the
current directory's entry names as an explicit list in readdir order.
`strcmp`-based comparisons agree with Lean's `String` order on the ASCII
file names the shell deals with. -/

/-- `has_wildcards`: the pattern contains `*`, `?` or `[`. -/
def has_wildcards (p : String) : Bool :=
  p.toList.any (fun c => c = '*' || c = '?' || c = '[')

/-- C `char` range comparison for `[a-z]` classes. -/
def charInRange (a b ch : Char) : Bool :=
  a.toNat ≤ ch.toNat && ch.toNat ≤ b.toNat

/-- The scanning loop of `match_char_class`, after the optional `!`:
accumulates whether any listed byte or range matched, and returns the
pattern remainder after the closing `]` (or at the end of the pattern).
A range `a-b` is taken only when the character after the dash is neither
`]` nor the end of the pattern. -/
def classLoop (ch : Char) : List Char → Bool → Bool × List Char
  | [], m => (m, [])
  | ']' :: rest, m => (m, rest)
  | a :: '-' :: b :: rest2, m =>
    if b = ']' then classLoop ch ('-' :: b :: rest2) (m || (ch = a))
    else classLoop ch rest2 (m || charInRange a b ch)
  | a :: rest, m => classLoop ch rest (m || (ch = a))

theorem classLoop_rest_length (ch : Char) (cs : List Char) (m : Bool) :
    (classLoop ch cs m).2.length ≤ cs.length := by
  induction cs, m using classLoop.induct ch <;> simp_all [classLoop] <;> omega

/-- `match_char_class`: leading `!` negates the accumulated result. -/
def match_char_class (pcs : List Char) (ch : Char) : Bool × List Char :=
  if pcs.head? = some '!' then
    let r := classLoop ch pcs.tail false
    (!r.1, r.2)
  else
    let r := classLoop ch pcs false
    (r.1, r.2)

theorem match_char_class_rest_length (pcs : List Char) (ch : Char) :
    (match_char_class pcs ch).2.length ≤ pcs.length := by
  unfold match_char_class
  split
  · have h := classLoop_rest_length ch pcs.tail false
    have ht : pcs.tail.length ≤ pcs.length := by cases pcs <;> simp
    simpa using Nat.le_trans h ht
  · simpa using classLoop_rest_length ch pcs false

/-- `match_pattern`: recursive wildcard match (`*`, `?`, `[...]`, literal). -/
def match_pattern : List Char → List Char → Bool
  | [], [] => true
  | [], _ :: _ => false
  | '*' :: prest, s =>
    match_pattern prest s ||
      (match s with
       | [] => false
       | _ :: srest => match_pattern ('*' :: prest) srest)
  | '?' :: prest, s =>
    (match s with
     | [] => false
     | _ :: srest => match_pattern prest srest)
  | '[' :: prest, s =>
    (match s with
     | [] => false
     | c :: srest =>
       if (match_char_class prest c).1 then
         match_pattern (match_char_class prest c).2 srest
       else false)
  | pc :: prest, s =>
    (match s with
     | [] => false
     | c :: srest => if pc = c then match_pattern prest srest else false)
termination_by p s => p.length + s.length
decreasing_by
  all_goals simp only [List.length_cons]
  all_goals
    first
      | omega
      | (have h := match_char_class_rest_length prest c; omega)

/-- The first byte of a string is `.` (C `s[0] == '.'`; false for ""). -/
def startsDot (s : String) : Bool := s.toList.head? = some '.'

/-- One entry of the `readdir` filter in `expand_glob`: `.` and `..` are
always skipped, dotfiles are skipped unless the pattern itself starts with
a dot, and the name must match the pattern. -/
def globKeeps (pat : String) (e : String) : Bool :=
  e ≠ "." && e ≠ ".." && !(startsDot e && !startsDot pat) &&
    match_pattern pat.toList e.toList

/-- Insertion sort by `String` order; the bubble sort in `expand_glob`
produces the same (stable, ascending) result. -/
def insertSorted (s : String) : List String → List String
  | [] => [s]
  | t :: ts => if s ≤ t then s :: t :: ts else t :: insertSorted s ts

def sortStrings : List String → List String
  | [] => []
  | s :: ss => insertSorted s (sortStrings ss)

/-- `expand_glob`: `none` models the C `NULL` return (no wildcards in the
pattern — decided before any directory access — or no matching entry).
At most `MAX_MATCHES = 1024` entries are collected. -/
def expand_glob (dir : List String) (pat : String) : Option (List String) :=
  if !has_wildcards pat then none
  else
    let ms := (dir.filter (globKeeps pat)).take 1024
    if ms.isEmpty then none else some (sortStrings ms)

/-- `expand_globs_in_argv` (`src/src/evaluator/executor.c`): each argument
is replaced by its matches, or kept literally when `expand_glob` returns
`NULL`. -/
def expand_globs_in_argv (dir : List String) (argv : List String) : List String :=
  argv.flatMap (fun a =>
    match expand_glob dir a with
    | some ms => ms
    | none => [a])

/-! ## Pipeline parser — `src/src/evaluator/executor.c`

`parse_pipeline` removes a trailing `&`, splits the line on `|`, and for
each segment scans for `<`, `>`, `>>` (later redirections of a stream
overriding earlier ones), tokenizes the remaining text with simple quote
handling, and glob-expands every token. -/

/-- The single-quote character (C `'\x27'`). -/
def squote : Char := Char.ofNat 39

theorem dropWhile_head_lt (p : Char → Bool) (c : Char) (rest : List Char)
    (h : p c = true) :
    ((c :: rest).dropWhile p).length < (c :: rest).length := by
  simp only [List.dropWhile, h]
  exact Nat.lt_succ_of_le (dropWhile_length_le p rest)

/-- `tokenize_command`: whitespace-separated tokens; `"` or `'` opens a
quoted run ending at the matching quote (or end of input), with the quotes
consumed. -/
def tokenize_command : List Char → List String
  | [] => []
  | c :: rest =>
    if isDelim c then tokenize_command rest
    else if c = '"' || c = squote then
      (rest.takeWhile (· ≠ c)).asString ::
        tokenize_command
          (if (rest.dropWhile (· ≠ c)).head? = some c
           then (rest.dropWhile (· ≠ c)).tail
           else rest.dropWhile (· ≠ c))
    else
      (c :: rest.takeWhile (fun x => !isDelim x)).asString ::
        tokenize_command (rest.dropWhile (fun x => !isDelim x))
termination_by cs => cs.length
decreasing_by
  all_goals simp only [List.length_cons]
  all_goals
    first
      | omega
      | (have h := dropWhile_length_le (fun x => !isDelim x) rest; omega)
      | (have h := dropWhile_length_le (fun x => decide (x ≠ c)) rest
         have htl : ((List.dropWhile (fun x => decide (x ≠ c)) rest).tail).length ≤
             (List.dropWhile (fun x => decide (x ≠ c)) rest).length := by
           cases List.dropWhile (fun x => decide (x ≠ c)) rest <;> simp
         split <;> omega)

/-- A redirection filename byte: stops at whitespace and at `>` / `<`. -/
def isFnameChar (c : Char) : Bool := !isDelim c && c ≠ '>' && c ≠ '<'

/-- After a redirection operator: skip whitespace, then take the filename
run; returns (filename, remaining input starting at the terminator). -/
def fnameSplit (cs : List Char) : String × List Char :=
  (((cs.dropWhile isDelim).takeWhile isFnameChar).asString,
   (cs.dropWhile isDelim).dropWhile isFnameChar)

theorem fnameSplit_rest_length (cs : List Char) :
    (fnameSplit cs).2.length ≤ cs.length :=
  Nat.le_trans (dropWhile_length_le isFnameChar (cs.dropWhile isDelim))
    (dropWhile_length_le isDelim cs)

/-- The result of the redirection scan over one segment: the accumulated
command text (redirection operators and filenames removed) and the final
redirections. -/
structure RedirResult where
  cmd : List Char
  infile : Option String
  outfile : Option String
  append : Bool
deriving DecidableEq, Repr

/-- The `while (*redir_ptr)` loop of `parse_pipeline`: scan the segment
left to right; `<` takes the following filename as input redirection,
`>>` / `>` as output redirection with/without append; each occurrence
overwrites the previously recorded path of its stream; ordinary bytes are
appended to the command text. -/
def redirScan : List Char → List Char → Option String → Option String → Bool → RedirResult
  | [], cmd, inf, outf, app => ⟨cmd, inf, outf, app⟩
  | '<' :: rest, cmd, _inf, outf, app =>
    redirScan (fnameSplit rest).2 cmd (some (fnameSplit rest).1) outf app
  | '>' :: '>' :: rest, cmd, inf, _outf, _app =>
    redirScan (fnameSplit rest).2 cmd inf (some (fnameSplit rest).1) true
  | '>' :: rest, cmd, inf, _outf, _app =>
    redirScan (fnameSplit rest).2 cmd inf (some (fnameSplit rest).1) false
  | c :: rest, cmd, inf, outf, app =>
    redirScan rest (cmd ++ [c]) inf outf app
termination_by cs _ _ _ _ => cs.length
decreasing_by
  all_goals simp only [List.length_cons]
  · have h := fnameSplit_rest_length rest; omega
  · have h := fnameSplit_rest_length rest; omega
  · have h := fnameSplit_rest_length rest; omega
  · omega

/-- Strip leading and trailing delimiters from a segment. -/
def trimChars (cs : List Char) : List Char :=
  ((cs.dropWhile isDelim).reverse.dropWhile isDelim).reverse

/-- A parsed command of a pipeline (struct `Command` in
`include/executor.h`). -/
structure Command where
  argv : List String
  infile : Option String
  outfile : Option String
  append : Bool
  background : Bool
deriving DecidableEq, Repr

/-- Parsing of one `|`-separated segment: trim, copy into the 1024-byte
`segment_copy` buffer (truncating to 1023 bytes), scan redirections,
tokenize the rest, glob-expand the tokens. -/
def parseSegment (dir : List String) (bg : Bool) (seg : List Char) : Command :=
  let st := redirScan ((trimChars seg).take 1023) [] none none false
  ⟨expand_globs_in_argv dir (tokenize_command st.cmd),
   st.infile, st.outfile, st.append, bg⟩

/-- Trailing-`&` detection of `parse_pipeline`.  The `&` must be the last
non-delimiter byte and must not sit at offset 0 (`end > line_copy`); the
delimiters before it are removed, except that the byte at offset 0 is
never touched by the trimming loops. -/
def stripBackground (cs : List Char) : Bool × List Char :=
  match cs.reverse.dropWhile isDelim with
  | '&' :: rest =>
    if rest.isEmpty then (false, cs)
    else
      match rest.reverse with
      | [] => (false, cs)
      | p0 :: ptail => (true, p0 :: (ptail.reverse.dropWhile isDelim).reverse)
  | _ => (false, cs)

/-- Split a line on every `|` byte (quotes are not honoured here, matching
the C scan). -/
def splitOnPipe : List Char → List (List Char)
  | [] => [[]]
  | '|' :: rest => [] :: splitOnPipe rest
  | c :: rest =>
    match splitOnPipe rest with
    | s :: ss => (c :: s) :: ss
    | [] => [[c]]

/-- `parse_pipeline`: background flag, split on `|`, parse each segment. -/
def parse_pipeline (dir : List String) (line : String) : List Command :=
  let sb := stripBackground line.toList
  (splitOnPipe sb.2).map (parseSegment dir sb.1)

/-! ## Completion provider — `src/src/utils/completion.c`

The directory scan is again modelled by an explicit entry list in readdir
order.  `strncmp(name, pfx, strlen(pfx)) == 0` is prefix comparison. -/

/-- The `builtin_commands` table. -/
def builtin_commands : List String :=
  ["cd", "pwd", "echo", "export", "exit", "set", "unset",
   "env", "help", "version", "history", "edi",
   "myls", "mycat", "mycp", "mymv", "myrm",
   "mymkdir", "myrmdir", "mytouch", "mystat", "myfd"]

/-- `completion_get_files`: current-directory entries other than `.` and
`..` whose name begins with the given token (an empty token matches every
entry; there is no separate dotfile filter). -/
def completion_get_files (dir : List String) (pfx : String) : List String :=
  dir.filter (fun e =>
    e ≠ "." && e ≠ ".." &&
      (pfx.toList.isEmpty || pfx.toList.isPrefixOf e.toList))

/-- `completion_generate`: without a space the first word is completed
against the built-in table; otherwise the text after the last space is a
filename token and each candidate is the text before the token plus a
matching file name. -/
def completion_generate (dir : List String) (text : String) : List String :=
  if text.isEmpty then []
  else if !text.toList.contains ' ' then
    builtin_commands.filter (fun c => text.toList.isPrefixOf c.toList)
  else
    let rev := text.toList.reverse
    let lastWord := (rev.takeWhile (· ≠ ' ')).reverse
    let pre := (rev.dropWhile (· ≠ ' ')).reverse
    (completion_get_files dir lastWord.asString).map
      (fun f => (pre ++ f.toList).asString)

/-! ## Executor — `src/src/evaluator/executor.c`

`execute_pipeline` is modelled as a function of the forked child pids and
the `waitpid(..., WUNTRACED)` results the parent observes, abstracting the
kernel.  A `WaitStatus` carries the observed 8-bit exit code
(`WEXITSTATUS`), the killing signal, or the stopping signal.  The job
registration performed through `jobs_add` (plus the immediate
`job->status = JOB_STOPPED` write for stopped jobs) is reported in the
outcome; `foreground_job_pid` bookkeeping and stdout printing have no
bearing on the claims and are elided. -/

inductive WaitStatus where
  | exited (code : Nat)
  | signaled (sig : Nat)
  | stopped (sig : Nat)
deriving DecidableEq, Repr

def WaitStatus.isStop : WaitStatus → Bool
  | .stopped _ => true
  | _ => false

inductive JobStatus where
  | running
  | stopped
  | done
deriving DecidableEq, Repr

/-- What the executor records in the job table for one pipeline. -/
structure JobReg where
  pid : Nat
  status : JobStatus
  background : Bool
  cmd : String
deriving DecidableEq, Repr

structure ExecOutcome where
  job : Option JobReg
  ret : Int
deriving DecidableEq, Repr

/-- The command string rebuilt for job display: argvs joined with
spaces and `" | "` between pipeline members. -/
def cmdLineJoin (argvs : List (List String)) : String :=
  String.intercalate " | " (argvs.map (String.intercalate " "))

/-- The `setpgid` argument pair issued (in both parent and child) for child
`i`: the first child becomes group leader, the others join its group. -/
def assignedPgid (pids : List Nat) (i : Nat) : Nat :=
  if i = 0 then pids.getD i 0 else pids.getD 0 0

/-- The foreground wait loop of `execute_pipeline`: children are waited on
left to right.  The first stop registers the pipeline (under the LAST
child's pid) as a stopped job and returns 0 at once; otherwise the returned
status is the `WEXITSTATUS` of the last child if it exited, else the
initial 0. -/
def fgWait (lastPid : Nat) (cmdStr : String) :
    List WaitStatus → Int → ExecOutcome
  | [], last => ⟨none, last⟩
  | [w], last =>
    match w with
    | .stopped _ => ⟨some ⟨lastPid, .stopped, false, cmdStr⟩, 0⟩
    | .exited c => ⟨none, c⟩
    | .signaled _ => ⟨none, last⟩
  | w :: ws, last =>
    match w with
    | .stopped _ => ⟨some ⟨lastPid, .stopped, false, cmdStr⟩, 0⟩
    | _ => fgWait lastPid cmdStr ws last

/-- The post-fork part of `execute_pipeline` (general path): a background
pipeline is registered under the last child's pid with the command string
plus `" &"` and returns 0 without waiting; a foreground pipeline runs the
wait loop. -/
def execute_pipeline (argvs : List (List String)) (pids : List Nat)
    (waits : List WaitStatus) (bg : Bool) : ExecOutcome :=
  if bg then
    ⟨some ⟨pids.getLastD 0, .running, true, cmdLineJoin argvs ++ " &"⟩, 0⟩
  else
    fgWait (pids.getLastD 0) (cmdLineJoin argvs) waits 0

/-- The wait half of `execute_command` (single command, fork/exec path):
a stop registers a stopped job under the child's pid and returns 0; an
exit returns the exit status; any other termination returns -1. -/
def execute_command_wait (pid : Nat) (cmdStr : String) (w : WaitStatus) :
    ExecOutcome :=
  match w with
  | .stopped _ => ⟨some ⟨pid, .stopped, false, cmdStr⟩, 0⟩
  | .exited c => ⟨none, c⟩
  | .signaled _ => ⟨none, -1⟩

/-! ## History store and REPL step — `src/src/utils/history.c`, `src/src/main.c`

History entries are kept oldest-first; `HISTORY_SIZE = 1000`. -/

def HISTORY_SIZE : Nat := 1000

/-- `history_add`: ignore empty lines and a line equal to the newest entry;
at capacity drop the oldest entry before appending. -/
def history_add (h : List String) (line : String) : List String :=
  if line.isEmpty then h
  else if h.getLast? = some line then h
  else (if h.length ≥ HISTORY_SIZE then h.drop 1 else h) ++ [line]

/-- `history_get_prev` with the navigation position reset (`nav = -1`, as
at a fresh prompt): returns the newest entry, if any. -/
def history_prev_from_reset (h : List String) : Option String :=
  if h.isEmpty then none else h.getLast?

/-- What one REPL iteration does with a line read from the terminal
(`main.c`): `exit` stops the shell, empty lines are skipped, an `@`-query
and an ordinary command line are both added to history AS TYPED, and only
an ordinary line is then expanded and executed. -/
inductive ReplAction where
  | exitShell
  | skip
  | aiQuery (query : String)
  | run (expandedLine : String)
deriving DecidableEq, Repr

def isAtQuery (line : String) : Bool :=
  ((line.toList.dropWhile (fun c => c = ' ' || c = '\t')).head? = some '@')

def repl_step (env : String → Option String) (hist : List String)
    (line : String) : List String × ReplAction :=
  if line = "exit" then (hist, .exitShell)
  else if line.isEmpty then (hist, .skip)
  else if isAtQuery line then
    (history_add hist line,
     .aiQuery (((line.toList.dropWhile (fun c => c = ' ' || c = '\t')).tail.dropWhile
        (fun c => c = ' ' || c = '\t')).asString))
  else
    (history_add hist line, .run (expand_variables env line))

/-! ## Helper lemmas about the environment store -/

theorem setFirst_names (name value : String) :
    ∀ (bs bs' : List Binding), setFirst name value bs = some bs' →
      bs'.map Binding.name = bs.map Binding.name := by
  intro bs
  induction bs with
  | nil => intro bs' h; simp [setFirst] at h
  | cons b rest ih =>
    intro bs' h
    by_cases hb : b.name = name
    · simp [setFirst, hb] at h
      subst h
      simp [hb]
    · simp [setFirst, hb] at h
      obtain ⟨t, ht, rfl⟩ := h
      simp [ih t ht]

theorem setFirst_none_iff (name value : String) :
    ∀ bs : List Binding,
      setFirst name value bs = none ↔ name ∉ bs.map Binding.name := by
  intro bs
  induction bs with
  | nil => simp [setFirst]
  | cons b rest ih =>
    by_cases hb : b.name = name
    · simp [setFirst, hb]
    · simp [setFirst, hb, ih]
      intro h
      exact fun he => hb he.symm

theorem setFirst_find (name value : String) :
    ∀ (bs bs' : List Binding), setFirst name value bs = some bs' →
      bs'.find? (fun b => b.name = name) = some ⟨name, value⟩ := by
  intro bs
  induction bs with
  | nil => intro bs' h; simp [setFirst] at h
  | cons b rest ih =>
    intro bs' h
    by_cases hb : b.name = name
    · simp [setFirst, hb] at h
      subst h
      simp [List.find?, hb]
    · simp [setFirst, hb] at h
      obtain ⟨t, ht, rfl⟩ := h
      simp [List.find?, hb]
      exact ih t ht

/-- After a successful `env_set` (the store had room or the name existed),
`env_get` of that name returns the value just written. -/
theorem env_set_get (ambient : String → Option String) (env : Env)
    (name value : String)
    (h : env.bindings.length < MAX_VARS ∨ name ∈ env.bindings.map Binding.name) :
    env_get ambient (env_set env name value) name = some value := by
  unfold env_set
  cases hsf : setFirst name value env.bindings with
  | some bs =>
    simp only [env_get]
    rw [setFirst_find name value env.bindings bs hsf]
  | none =>
    have hnm : name ∉ env.bindings.map Binding.name :=
      (setFirst_none_iff name value env.bindings).mp hsf
    have hroom : env.bindings.length < MAX_VARS := by
      rcases h with h | h
      · exact h
      · exact absurd h hnm
    simp only [if_neg (Nat.not_le.mpr hroom)]
    have hfind : env.bindings.find? (fun b => b.name = name) = none := by
      rw [List.find?_eq_none]
      intro b hbmem hb
      exact hnm (List.mem_map.mpr ⟨b, hbmem, by simpa using hb⟩)
    simp only [env_get, List.find?_append, hfind]
    simp [List.find?]

/-- The names listed by `enumerate` after a successful `env_set`. -/
theorem env_set_names (env : Env) (name value : String)
    (h : env.bindings.length < MAX_VARS ∨ name ∈ env.bindings.map Binding.name) :
    env_enumerate (env_set env name value) =
      if name ∈ env.bindings.map Binding.name
      then env_enumerate env
      else env_enumerate env ++ [name] := by
  unfold env_set env_enumerate
  cases hsf : setFirst name value env.bindings with
  | some bs =>
    have hmem : name ∈ env.bindings.map Binding.name := by
      by_contra hc
      rw [← setFirst_none_iff name value env.bindings] at hc
      rw [hsf] at hc
      exact Option.noConfusion hc
    simp [hmem, setFirst_names name value env.bindings bs hsf]
  | none =>
    have hnm : name ∉ env.bindings.map Binding.name :=
      (setFirst_none_iff name value env.bindings).mp hsf
    have hroom : env.bindings.length < MAX_VARS := by
      rcases h with h | h
      · exact h
      · exact absurd h hnm
    simp [hnm, if_neg (Nat.not_le.mpr hroom)]

/-! ## Claim C4 -/

set_option maxRecDepth 4000 in
/-- C4, counterexample: with the store already holding 100 other bindings
(its `MAX_VARS` bound) and an ambient environment not binding the name,
`set(name, v)` is rejected, so `get(name)` does not return `v` — the claim
fails exactly at the 100-entry bound it includes. -/
theorem c4_set_get_cx :
    env_get (fun _ => none)
      (env_set ⟨(List.range 100).map (fun i => ⟨"v" ++ toString i, "0"⟩)⟩
        "name" "val") "name" ≠ some "val" := by
  decide

/-- C4 (amended): for every name and value, immediately after
`set(name, v)` on a store that has room for a new binding (fewer than 100
entries) or already binds the name, `get(name)` returns `v`; after
`set(name, v1); set(name, v2)` under the same condition `get(name)`
returns `v2` and `enumerate()` lists the name exactly once (given the
store's names were duplicate-free, as every store built by `env_set`
is).  At the 100-entry bound a fresh name is rejected. -/
theorem c4_set_get (ambient : String → Option String) (env : Env)
    (name v1 v2 : String)
    (hnd : (env.bindings.map Binding.name).Nodup)
    (h : env.bindings.length < MAX_VARS ∨ name ∈ env.bindings.map Binding.name) :
    env_get ambient (env_set env name v1) name = some v1 ∧
    env_get ambient (env_set (env_set env name v1) name v2) name = some v2 ∧
    (env_enumerate (env_set (env_set env name v1) name v2)).count name = 1 := by
  have hnames1 := env_set_names env name v1 h
  have hmem1 : name ∈ (env_set env name v1).bindings.map Binding.name := by
    have : (env_set env name v1).bindings.map Binding.name =
        env_enumerate (env_set env name v1) := by
      simp [env_enumerate]
    rw [this, hnames1]
    by_cases hm : name ∈ env.bindings.map Binding.name
    · rw [if_pos hm]; simpa [env_enumerate] using hm
    · rw [if_neg hm]; simp [env_enumerate]
  refine ⟨env_set_get ambient env name v1 h, ?_, ?_⟩
  · exact env_set_get ambient (env_set env name v1) name v2 (Or.inr hmem1)
  · have hnames2 := env_set_names (env_set env name v1) name v2 (Or.inr hmem1)
    rw [hnames2, if_pos hmem1, hnames1]
    by_cases hm : name ∈ env.bindings.map Binding.name
    · rw [if_pos hm]
      exact List.count_eq_one_of_mem hnd (by simpa [env_enumerate] using hm)
    · rw [if_neg hm]
      have h0 : (env_enumerate env).count name = 0 := by
        rw [List.count_eq_zero]
        simpa [env_enumerate] using hm
      simp [List.count_append, h0]

/-- C4, witness: instantiating `c4_set_get` at a concrete store. -/
theorem c4_set_get_witness :
    env_get (fun _ => none) (env_set ⟨[⟨"HOME", "/root"⟩]⟩ "x" "1") "x" = some "1" ∧
    env_get (fun _ => none)
      (env_set (env_set ⟨[⟨"HOME", "/root"⟩]⟩ "x" "1") "x" "2") "x" = some "2" ∧
    (env_enumerate (env_set (env_set ⟨[⟨"HOME", "/root"⟩]⟩ "x" "1") "x" "2")).count "x" = 1 :=
  c4_set_get (fun _ => none) ⟨[⟨"HOME", "/root"⟩]⟩ "x" "1" "2"
    (by decide) (Or.inl (by decide))

/-! ## Claim C10 -/

theorem history_add_newest (h : List String) (line : String) (hne : line ≠ "") :
    history_prev_from_reset (history_add h line) = some line := by
  have hie : line.isEmpty = false := by
    cases he : line.isEmpty
    · rfl
    · exact absurd ((String.isEmpty_iff line).mp he) hne
  unfold history_add
  rw [if_neg (by simp [hie])]
  by_cases hl : h.getLast? = some line
  · rw [if_pos hl]
    unfold history_prev_from_reset
    have hne2 : h ≠ [] := by
      intro hc
      subst hc
      simp at hl
    rw [if_neg (by simp [hne2])]
    exact hl
  · rw [if_neg hl]
    unfold history_prev_from_reset
    rw [if_neg (by simp)]
    exact List.getLast?_concat _

/-- C10: for every non-empty line other than `exit`, the REPL records the
line in the history exactly as typed — `history_add` runs on the raw line
before `expand_variables_inplace` — so the newest history entry (what the
cursor recalls at a fresh prompt) is the unexpanded text, while the
executed command is the expanded text. -/
theorem c10_history_raw (env : String → Option String) (hist : List String)
    (line : String) (hne : line ≠ "") (hex : line ≠ "exit") :
    (repl_step env hist line).1 = history_add hist line ∧
    history_prev_from_reset (repl_step env hist line).1 = some line ∧
    (isAtQuery line = false →
      (repl_step env hist line).2 = ReplAction.run (expand_variables env line)) := by
  have hie : line.isEmpty = false := by
    cases he : line.isEmpty
    · rfl
    · exact absurd ((String.isEmpty_iff line).mp he) hne
  unfold repl_step
  rw [if_neg hex, if_neg (by simp [hie])]
  by_cases hq : isAtQuery line
  · rw [if_pos hq]
    exact ⟨rfl, history_add_newest hist line hne, fun hc => by simp [hq] at hc⟩
  · rw [if_neg hq]
    exact ⟨rfl, history_add_newest hist line hne, fun _ => rfl⟩

/-- C10, witness: `echo $x` is stored as typed while the executed line is
the expanded `echo 5`. -/
theorem c10_history_raw_witness :
    (repl_step (fun s => if s = "x" then some "5" else none) ["pwd"] "echo $x").1 =
        history_add ["pwd"] "echo $x" ∧
    history_prev_from_reset
        (repl_step (fun s => if s = "x" then some "5" else none) ["pwd"] "echo $x").1 =
      some "echo $x" ∧
    (isAtQuery "echo $x" = false →
      (repl_step (fun s => if s = "x" then some "5" else none) ["pwd"] "echo $x").2 =
        ReplAction.run
          (expand_variables (fun s => if s = "x" then some "5" else none) "echo $x")) :=
  c10_history_raw (fun s => if s = "x" then some "5" else none) ["pwd"] "echo $x"
    (by decide) (by decide)

/-! ## Claim C5 -/

/-- C5, counterexample: `$((1 + 2/0))` evaluates to 1, not 0 — the zero
produced for the division replaces only the term `2/0`, and the earlier
addend survives, contradicting the claim that the expression as a whole
yields 0.  The diagnostic is emitted. -/
theorem c5_div_zero_cx :
    (eval_arithmetic (fun _ => none) "1 + 2/0").val = 1 ∧ (1 : Int) ≠ 0 ∧
    "arithmetic: division by zero" ∈ (eval_arithmetic (fun _ => none) "1 + 2/0").diags := by
  decide

/-- C5 (amended): a division or modulus whose right operand evaluates to
zero emits a diagnostic and makes the ENCLOSING TERM yield 0 (the partial
product is discarded and the rest of the term is skipped); the surrounding
additive expression continues with that 0, so `1 + 2/0` evaluates to 1,
not 0. -/
theorem c5_div_zero (env : String → Option String) (fuel : Nat) (left : Int)
    (cs csm r rm : List Char) (ds : List String)
    (hdiv : skipWs cs = '/' :: r)
    (hz : (parse_factor env fuel r).val = 0)
    (hmod : skipWs csm = '%' :: rm)
    (hzm : (parse_factor env fuel rm).val = 0) :
    termLoop env (fuel + 1) left cs ds =
      ⟨0, (parse_factor env fuel r).rest,
       ds ++ (parse_factor env fuel r).diags ++ ["arithmetic: division by zero"]⟩ ∧
    termLoop env (fuel + 1) left csm ds =
      ⟨0, (parse_factor env fuel rm).rest,
       ds ++ (parse_factor env fuel rm).diags ++ ["arithmetic: modulo by zero"]⟩ ∧
    (eval_arithmetic env "1 + 2/0").val = 1 := by
  refine ⟨?_, ?_, ?_⟩
  · simp only [termLoop, hdiv]
    simp [hz]
  · simp only [termLoop, hmod]
    simp [hzm]
  · rfl

/-- C5, witness: the division and modulus cases at concrete inputs. -/
theorem c5_div_zero_witness :
    termLoop (fun _ => none) 8 7 " / 0".toList [] =
      ⟨0, (parse_factor (fun _ => none) 7 " 0".toList).rest,
       [] ++ (parse_factor (fun _ => none) 7 " 0".toList).diags ++
         ["arithmetic: division by zero"]⟩ ∧
    termLoop (fun _ => none) 8 7 " % 0".toList [] =
      ⟨0, (parse_factor (fun _ => none) 7 " 0".toList).rest,
       [] ++ (parse_factor (fun _ => none) 7 " 0".toList).diags ++
         ["arithmetic: modulo by zero"]⟩ ∧
    (eval_arithmetic (fun _ => none) "1 + 2/0").val = 1 :=
  c5_div_zero (fun _ => none) 7 7 " / 0".toList " % 0".toList
    " 0".toList " 0".toList []
    (by decide) (by decide) (by decide) (by decide)

/-! ## Claim C7 -/

/-- C7: a pattern with none of `*`, `?`, `[` is passed through unchanged,
and `expand_glob` returns the same answer whatever the directory holds
(the `NULL` return happens before `opendir` — no directory access); a
wildcard pattern matching no entry is likewise passed through as the
single resulting argument. -/
theorem c7_glob_passthrough (dir dirB : List String) (pat patW : String)
    (hnw : has_wildcards pat = false)
    (hw : has_wildcards patW = true)
    (hnone : dirB.filter (globKeeps patW) = []) :
    expand_glob dir pat = none ∧
    expand_glob dirB pat = expand_glob dir pat ∧
    expand_globs_in_argv dir [pat] = [pat] ∧
    expand_glob dirB patW = none ∧
    expand_globs_in_argv dirB [patW] = [patW] := by
  have h1 : expand_glob dir pat = none := by
    unfold expand_glob
    rw [hnw]
    rfl
  have h1b : expand_glob dirB pat = none := by
    unfold expand_glob
    rw [hnw]
    rfl
  have h4 : expand_glob dirB patW = none := by
    unfold expand_glob
    rw [hw, hnone]
    rfl
  refine ⟨h1, by rw [h1, h1b], ?_, h4, ?_⟩
  · simp [expand_globs_in_argv, h1]
  · simp [expand_globs_in_argv, h4]

/-- C7, witness: a literal pattern and a non-matching wildcard pattern. -/
theorem c7_glob_passthrough_witness :
    expand_glob ["a.txt"] "hello" = none ∧
    expand_glob ["b.log"] "hello" = expand_glob ["a.txt"] "hello" ∧
    expand_globs_in_argv ["a.txt"] ["hello"] = ["hello"] ∧
    expand_glob ["b.log"] "*.zzz" = none ∧
    expand_globs_in_argv ["b.log"] ["*.zzz"] = ["*.zzz"] :=
  c7_glob_passthrough ["a.txt"] ["b.log"] "hello" "*.zzz"
    (by decide) (by decide)
    (by simp [globKeeps, startsDot, match_pattern, match_char_class, classLoop])

/-! ## Helper lemmas about the executor wait loop -/

/-- Every job the foreground wait loop registers carries the LAST child's
pid (the `pids[count - 1]` passed to `jobs_add`). -/
theorem fgWait_job_pid (lp : Nat) (cs : String) :
    ∀ (ws : List WaitStatus) (acc : Int),
      ((fgWait lp cs ws acc).job.all (fun j => j.pid = lp)) = true := by
  intro ws
  induction ws with
  | nil => intro acc; simp [fgWait]
  | cons w ws ih =>
    intro acc
    cases ws with
    | nil => cases w <;> simp [fgWait]
    | cons w2 ws2 => cases w <;> simp [fgWait] <;> exact ih acc

theorem fgWait_last_exited (lp : Nat) (cs : String) (c : Nat) :
    ∀ (ws : List WaitStatus) (acc : Int), (∀ w ∈ ws, w.isStop = false) →
      (fgWait lp cs (ws ++ [WaitStatus.exited c]) acc).ret = c := by
  intro ws
  induction ws with
  | nil => intro acc _; simp [fgWait]
  | cons w ws ih =>
    intro acc hns
    have hw : w.isStop = false := hns w (by simp)
    have hrest : ∀ x ∈ ws, x.isStop = false := fun x hx => hns x (by simp [hx])
    cases ws with
    | nil =>
      cases w with
      | stopped s => simp [WaitStatus.isStop] at hw
      | exited c2 => simp [fgWait]
      | signaled s => simp [fgWait]
    | cons w2 ws2 =>
      cases w with
      | stopped s => simp [WaitStatus.isStop] at hw
      | exited c2 => simpa [fgWait] using ih acc hrest
      | signaled s => simpa [fgWait] using ih acc hrest

theorem fgWait_last_signaled (lp : Nat) (cs : String) (s : Nat) :
    ∀ (ws : List WaitStatus) (acc : Int), (∀ w ∈ ws, w.isStop = false) →
      (fgWait lp cs (ws ++ [WaitStatus.signaled s]) acc).ret = acc := by
  intro ws
  induction ws with
  | nil => intro acc _; simp [fgWait]
  | cons w ws ih =>
    intro acc hns
    have hw : w.isStop = false := hns w (by simp)
    have hrest : ∀ x ∈ ws, x.isStop = false := fun x hx => hns x (by simp [hx])
    cases ws with
    | nil =>
      cases w with
      | stopped s2 => simp [WaitStatus.isStop] at hw
      | exited c2 => simp [fgWait]
      | signaled s2 => simp [fgWait]
    | cons w2 ws2 =>
      cases w with
      | stopped s2 => simp [WaitStatus.isStop] at hw
      | exited c2 => simpa [fgWait] using ih acc hrest
      | signaled s2 => simpa [fgWait] using ih acc hrest

theorem fgWait_stopped_head (lp : Nat) (cs : String) (s : Nat)
    (post : List WaitStatus) (acc : Int) :
    fgWait lp cs (WaitStatus.stopped s :: post) acc =
      ⟨some ⟨lp, .stopped, false, cs⟩, 0⟩ := by
  cases post <;> simp [fgWait]

/-- The first stopped child ends the wait loop: the pipeline is registered
as a stopped job under the last child's pid and the status is 0. -/
theorem fgWait_stopped (lp : Nat) (cs : String) (s : Nat) :
    ∀ (pre post : List WaitStatus) (acc : Int), (∀ w ∈ pre, w.isStop = false) →
      fgWait lp cs (pre ++ WaitStatus.stopped s :: post) acc =
        ⟨some ⟨lp, .stopped, false, cs⟩, 0⟩ := by
  intro pre
  induction pre with
  | nil => intro post acc _; exact fgWait_stopped_head lp cs s post acc
  | cons w pre ih =>
    intro post acc hns
    have hw : w.isStop = false := hns w (by simp)
    have hrest : ∀ x ∈ pre, x.isStop = false := fun x hx => hns x (by simp [hx])
    cases pre with
    | nil =>
      cases w with
      | stopped s2 => simp [WaitStatus.isStop] at hw
      | exited c2 => simpa [fgWait] using fgWait_stopped_head lp cs s post acc
      | signaled s2 => simpa [fgWait] using fgWait_stopped_head lp cs s post acc
    | cons w2 pre2 =>
      cases w with
      | stopped s2 => simp [WaitStatus.isStop] at hw
      | exited c2 => simpa [fgWait] using ih post acc hrest
      | signaled s2 => simpa [fgWait] using ih post acc hrest

/-! ## Claim C1 -/

/-- C1, counterexample: a 2-command background pipeline with child pids
100 and 101 is registered with pid 101 — the LAST child's pid — not the
first child's pid 100 as the claim states. -/
theorem c1_job_pid_cx :
    (execute_pipeline [["sleep", "30"], ["cat"]] [100, 101] [] true).job.map
        JobReg.pid = some 101 ∧
    (101 : Nat) ≠ 100 := by
  decide

/-- C1 (amended): every job the executor registers (a background pipeline
at launch, or a foreground pipeline observed stopped) is recorded under
the pid of the pipeline's LAST process (`pids[count - 1]`), while the
process group set up by the `setpgid` calls is led by the FIRST process:
every child's assigned pgid is `pids[0]`.  For a single-command pipeline
the two coincide. -/
theorem c1_job_pid (argvs : List (List String)) (pids : List Nat)
    (waits : List WaitStatus) (bg : Bool) :
    ((execute_pipeline argvs pids waits bg).job.all
        (fun j => j.pid = pids.getLastD 0)) = true ∧
    ((List.range pids.length).all
        (fun i => assignedPgid pids i = pids.headD 0)) = true := by
  constructor
  · unfold execute_pipeline
    cases bg with
    | true => simp
    | false => exact fgWait_job_pid (pids.getLastD 0) (cmdLineJoin argvs) waits 0
  · rw [List.all_eq_true]
    intro i hi
    rw [List.mem_range] at hi
    unfold assignedPgid
    by_cases h0 : i = 0
    · subst h0
      cases pids <;> simp
    · rw [if_neg h0]
      cases pids <;> simp

/-! ## Claim C2 -/

/-- C2: for a foreground pipeline in which no child is observed stopped
and whose last child exits with status `c`, the executor returns `c`,
whatever the earlier children's wait statuses were. -/
theorem c2_last_status (argvs : List (List String)) (pids : List Nat)
    (ws : List WaitStatus) (c : Nat)
    (hns : ∀ w ∈ ws, w.isStop = false) :
    (execute_pipeline argvs pids (ws ++ [WaitStatus.exited c]) false).ret = c := by
  unfold execute_pipeline
  rw [if_neg (by simp)]
  exact fgWait_last_exited (pids.getLastD 0) (cmdLineJoin argvs) c ws 0 hns

/-- C2, witness: `false | exit 9 | exit 4` shape — earlier children exit 1
and die on signal 9, the last exits 4; the pipeline status is 4. -/
theorem c2_last_status_witness :
    (execute_pipeline [["false"], ["cmd2"], ["cmd3"]] [10, 11, 12]
        ([WaitStatus.exited 1, WaitStatus.signaled 9] ++ [WaitStatus.exited 4])
        false).ret = 4 :=
  c2_last_status [["false"], ["cmd2"], ["cmd3"]] [10, 11, 12]
    [WaitStatus.exited 1, WaitStatus.signaled 9] 4 (by decide)

/-! ## Claim C3 -/

/-- C3, counterexample: a foreground pipeline whose last child is killed
by SIGINT (signal 2) yields shell status 0 — and the single-command
fork path yields -1 — not `128 + 2 = 130` as the claim states. -/
theorem c3_signal_status_cx :
    (execute_pipeline [["cat"], ["cat"]] [100, 101]
        [WaitStatus.exited 0, WaitStatus.signaled 2] false).ret = 0 ∧
    ((0 : Int) ≠ 128 + 2) ∧
    (execute_command_wait 100 "cat" (WaitStatus.signaled 2)).ret = -1 ∧
    ((-1 : Int) ≠ 128 + 2) := by
  decide

/-- C3 (amended): when the last child of a foreground pipeline is killed
by a signal (and no child stopped), the shell-level status is 0 — the
initial `last_status`, since `WIFEXITED` fails — and the single-command
fork path (`execute_command`) returns -1; no `128 + signo` encoding
exists.  The SIGTSTP half of the claim holds: a stopped child registers
the pipeline as a Stopped job (under the last pid) with status 0. -/
theorem c3_signal_status (argvs : List (List String)) (pids : List Nat)
    (ws pre post : List WaitStatus) (sk ss : Nat) (pid : Nat) (cstr : String)
    (hws : ∀ w ∈ ws, w.isStop = false)
    (hpre : ∀ w ∈ pre, w.isStop = false) :
    (execute_pipeline argvs pids (ws ++ [WaitStatus.signaled sk]) false).ret = 0 ∧
    execute_command_wait pid cstr (WaitStatus.signaled sk) = ⟨none, -1⟩ ∧
    execute_pipeline argvs pids (pre ++ WaitStatus.stopped ss :: post) false =
      ⟨some ⟨pids.getLastD 0, .stopped, false, cmdLineJoin argvs⟩, 0⟩ := by
  refine ⟨?_, rfl, ?_⟩
  · unfold execute_pipeline
    rw [if_neg (by simp)]
    exact fgWait_last_signaled (pids.getLastD 0) (cmdLineJoin argvs) sk ws 0 hws
  · unfold execute_pipeline
    rw [if_neg (by simp)]
    exact fgWait_stopped (pids.getLastD 0) (cmdLineJoin argvs) ss pre post 0 hpre

/-- C3, witness: a SIGINT-killed two-command pipeline and a SIGTSTP stop. -/
theorem c3_signal_status_witness :
    (execute_pipeline [["cat"], ["wc"]] [100, 101]
        ([WaitStatus.exited 0] ++ [WaitStatus.signaled 2]) false).ret = 0 ∧
    execute_command_wait 100 "cat" (WaitStatus.signaled 2) = ⟨none, -1⟩ ∧
    execute_pipeline [["cat"], ["wc"]] [100, 101]
        ([] ++ WaitStatus.stopped 20 :: [WaitStatus.exited 0]) false =
      ⟨some ⟨[100, 101].getLastD 0, .stopped, false, cmdLineJoin [["cat"], ["wc"]]⟩, 0⟩ :=
  c3_signal_status [["cat"], ["wc"]] [100, 101]
    [WaitStatus.exited 0] [] [WaitStatus.exited 0] 2 20 100 "cat"
    (by decide) (by decide)

/-! ## Claim C9 -/

/-- The candidate set as the claim describes it: entries beginning with
the token prefix, with `.` and `..` omitted and dotfiles omitted unless
the prefix itself begins with a dot. -/
def completion_files_claimed (dir : List String) (pfx : String) : List String :=
  dir.filter (fun e =>
    e ≠ "." && e ≠ ".." && pfx.toList.isPrefixOf e.toList &&
      (!startsDot e || startsDot pfx))

/-- C9, counterexample: with an empty token prefix (not beginning with a
dot) the code returns the dotfile `.bashrc`, which the claim's dotfile
rule excludes. -/
theorem c9_dotfiles_cx :
    completion_get_files [".bashrc"] "" = [".bashrc"] ∧
    completion_files_claimed [".bashrc"] "" = [] ∧
    completion_get_files [".bashrc"] "" ≠ completion_files_claimed [".bashrc"] "" := by
  decide

/-- C9 (amended): the filename candidates are exactly the current-directory
entries other than `.` and `..` whose names begin with the token prefix —
there is NO separate dotfile filter, so a dotfile appears whenever it
matches the prefix; with a nonempty prefix that forces the prefix to begin
with a dot, but with an empty prefix all dotfiles are listed.
`completion_generate` prefixes each candidate with the text before the
token. -/
theorem c9_file_candidates (dir : List String) (pfx : String) (text : String)
    (hne : text.isEmpty = false)
    (hsp : text.toList.contains ' ' = true) :
    completion_get_files dir pfx =
      dir.filter (fun e => e ≠ "." && e ≠ ".." && pfx.toList.isPrefixOf e.toList) ∧
    (completion_get_files dir pfx).all
      (fun e => !startsDot e || pfx.toList.isEmpty || startsDot pfx) = true ∧
    completion_generate dir text =
      (completion_get_files dir
          ((text.toList.reverse.takeWhile (· ≠ ' ')).reverse.asString)).map
        (fun f => ((text.toList.reverse.dropWhile (· ≠ ' ')).reverse ++ f.toList).asString) := by
  refine ⟨?_, ?_, ?_⟩
  · unfold completion_get_files
    apply List.filter_congr
    intro e _
    cases hp : pfx.toList with
    | nil => simp [List.isPrefixOf]
    | cons c cs => simp
  · rw [List.all_eq_true]
    intro e he
    rw [completion_get_files, List.mem_filter] at he
    obtain ⟨_, hcond⟩ := he
    by_cases hd : startsDot e
    · cases hp : pfx.toList with
      | nil => simp [hp]
      | cons c cs =>
        simp only [hp, hd, Bool.not_true, Bool.false_or, List.isEmpty_cons,
          Bool.false_or]
        have hpref : List.isPrefixOf (c :: cs) e.toList = true := by
          rw [hp] at hcond
          simp only [Bool.and_eq_true, Bool.or_eq_true, List.isEmpty_cons] at hcond
          rcases hcond.2 with h | h
          · exact absurd h (by simp)
          · exact h
        obtain ⟨et, het⟩ : ∃ t, e.toList = '.' :: t := by
          unfold startsDot at hd
          cases hel : e.toList with
          | nil => rw [hel] at hd; simp at hd
          | cons x xs =>
            rw [hel] at hd
            simp at hd
            exact ⟨xs, by rw [hd]⟩
        rw [het] at hpref
        simp [List.isPrefixOf] at hpref
        unfold startsDot
        rw [hp]
        simp [hpref.1]
    · simp [hd]
  · unfold completion_generate
    rw [if_neg (by simp [hne]), if_neg (by rw [hsp]; simp)]

/-- C9, witness: completing `cat f` in a directory with a match, a
non-match and a dotfile. -/
theorem c9_file_candidates_witness :
    completion_get_files ["foo", ".git", "bar"] "f" =
      List.filter (fun e => e ≠ "." && e ≠ ".." && "f".toList.isPrefixOf e.toList)
        ["foo", ".git", "bar"] ∧
    (completion_get_files ["foo", ".git", "bar"] "f").all
      (fun e => !startsDot e || "f".toList.isEmpty || startsDot "f") = true ∧
    completion_generate ["foo", ".git", "bar"] "cat f" =
      (completion_get_files ["foo", ".git", "bar"]
          (("cat f".toList.reverse.takeWhile (· ≠ ' ')).reverse.asString)).map
        (fun f => (("cat f".toList.reverse.dropWhile (· ≠ ' ')).reverse ++ f.toList).asString) :=
  c9_file_candidates ["foo", ".git", "bar"] "f" "cat f" (by decide) (by decide)

/-! ## Claim C6 -/

theorem takeWhile_append_all (p : Char → Bool) :
    ∀ (xs ys : List Char), (∀ c ∈ xs, p c = true) →
      (∀ c, ys.head? = some c → p c = false) →
      (xs ++ ys).takeWhile p = xs ∧ (xs ++ ys).dropWhile p = ys := by
  intro xs
  induction xs with
  | nil =>
    intro ys _ hy
    cases ys with
    | nil => simp
    | cons y ys2 =>
      have hpy := hy y rfl
      simp [List.takeWhile, List.dropWhile, hpy]
  | cons x xs ih =>
    intro ys hx hy
    have hpx : p x = true := hx x (by simp)
    have hxs : ∀ c ∈ xs, p c = true := fun c hc => hx c (by simp [hc])
    have hih := ih ys hxs hy
    simp [List.takeWhile, List.dropWhile, hpx, hih.1, hih.2]

theorem isNameChar_not_special (c : Char) (h : isNameChar c = true) :
    c ≠ '(' ∧ c ≠ '{' := by
  constructor <;> rintro rfl <;> exact absurd h (by decide)

theorem expandChars_copy (env : String → Option String) (c : Char)
    (rest : List Char) (hc : c ≠ '$') :
    expandChars env (c :: rest) = c :: expandChars env rest := by
  simp only [expandChars]
  rw [if_neg hc]

theorem expandChars_plain_name (env : String → Option String)
    (name rest : List Char) (hne : name ≠ [])
    (hall : ∀ x ∈ name, isNameChar x = true) (hlen : name.length ≤ 255)
    (hstop : ∀ x, rest.head? = some x → isNameChar x = false) :
    expandChars env ('$' :: (name ++ rest)) =
      ((env name.asString).getD "").toList ++ expandChars env rest := by
  obtain ⟨n0, name2, rfl⟩ : ∃ a l, name = a :: l := by
    cases name with
    | nil => exact absurd rfl hne
    | cons a l => exact ⟨a, l, rfl⟩
  have h0 : isNameChar n0 = true := hall n0 (by simp)
  have hno := isNameChar_not_special n0 h0
  have hsplit := takeWhile_append_all isNameChar (n0 :: name2) rest hall hstop
  simp only [List.cons_append] at hsplit ⊢
  simp only [expandChars]
  rw [if_pos trivial, if_neg (by simp [hno.1]), if_neg (by simp [hno.2]),
    hsplit.1, hsplit.2, List.take_of_length_le (by simpa using hlen)]

theorem expandChars_braced_name (env : String → Option String)
    (name rest : List Char)
    (hall : ∀ x ∈ name, isNameChar x = true) (hlen : name.length ≤ 255) :
    expandChars env ('$' :: '{' :: (name ++ '}' :: rest)) =
      ((env name.asString).getD "").toList ++ expandChars env rest := by
  have hsplit := takeWhile_append_all isNameChar name ('}' :: rest) hall
    (fun x hx => by
      have : x = '}' := by simpa using hx.symm
      subst this
      decide)
  simp only [expandChars]
  rw [if_pos trivial, if_neg (by simp), if_pos (by simp)]
  simp only [List.tail_cons]
  rw [hsplit.1, hsplit.2, List.take_of_length_le hlen]
  simp

/-- C6, counterexample: the reference `$1a`, whose first character after
`$` is a digit, IS treated as a variable reference (name characters are
`isalnum || '_'`, digits included), so with `1a` unbound the expander
drops it instead of copying `$1a` through. -/
theorem c6_expand_cx :
    expand_variables (fun _ => none) "$1a" = "" ∧ ("" : String) ≠ "$1a" := by
  constructor
  · simp [expand_variables, expandChars, List.takeWhile, List.dropWhile,
      isNameChar, isAlnumC, isAlphaC, isDigitC]
    decide
  · decide

/-- C6 (amended): the expander substitutes `$NAME` and `${NAME}` for NAME
matching `[A-Za-z0-9_]+` — a digit may start the name — replacing a bound
name by its value and an absent name by the empty string (`getD ""`), and
copying any character other than `$` through unchanged. -/
theorem c6_expand (env : String → Option String) (c : Char)
    (crest name rest bname brest : List Char)
    (hc : c ≠ '$')
    (hne : name ≠ []) (hall : ∀ x ∈ name, isNameChar x = true)
    (hlen : name.length ≤ 255)
    (hstop : ∀ x, rest.head? = some x → isNameChar x = false)
    (hball : ∀ x ∈ bname, isNameChar x = true) (hblen : bname.length ≤ 255) :
    expandChars env (c :: crest) = c :: expandChars env crest ∧
    expandChars env ('$' :: (name ++ rest)) =
      ((env name.asString).getD "").toList ++ expandChars env rest ∧
    expandChars env ('$' :: '{' :: (bname ++ '}' :: brest)) =
      ((env bname.asString).getD "").toList ++ expandChars env brest :=
  ⟨expandChars_copy env c crest hc,
   expandChars_plain_name env name rest hne hall hlen hstop,
   expandChars_braced_name env bname brest hball hblen⟩

/-- C6, witness: `$x9` and `${x9}` with `x9` bound to `5`, and copy-through
of an ordinary character. -/
theorem c6_expand_witness :
    expandChars (fun s => if s = "x9" then some "5" else none) ('a' :: "bc".toList) =
      'a' :: expandChars (fun s => if s = "x9" then some "5" else none) "bc".toList ∧
    expandChars (fun s => if s = "x9" then some "5" else none)
        ('$' :: ("x9".toList ++ "!".toList)) =
      (((fun s => if s = "x9" then some "5" else none) "x9".toList.asString).getD "").toList
        ++ expandChars (fun s => if s = "x9" then some "5" else none) "!".toList ∧
    expandChars (fun s => if s = "x9" then some "5" else none)
        ('$' :: '{' :: ("x9".toList ++ '}' :: "z".toList)) =
      (((fun s => if s = "x9" then some "5" else none) "x9".toList.asString).getD "").toList
        ++ expandChars (fun s => if s = "x9" then some "5" else none) "z".toList :=
  c6_expand (fun s => if s = "x9" then some "5" else none) 'a'
    "bc".toList "x9".toList "!".toList "x9".toList "z".toList
    (by decide) (by decide) (by decide) (by decide)
    (by intro x hx; simp at hx; subst hx; decide) (by decide) (by decide)

/-! ## Claim C8 — helper lemmas about the redirection scan -/

theorem fnameSplit_mem (cs : List Char) (x : Char) (h : x ∈ (fnameSplit cs).2) :
    x ∈ cs :=
  mem_of_mem_dropWhile isDelim cs x
    (mem_of_mem_dropWhile isFnameChar (cs.dropWhile isDelim) x h)

theorem fnameSplit_suffix (cs : List Char) : (fnameSplit cs).2 <:+ cs :=
  (dropWhile_isSuffix isFnameChar (cs.dropWhile isDelim)).trans
    (dropWhile_isSuffix isDelim cs)

/-- The filename scan after an operator never crosses a following `<` or
`>` byte: on `xs ++ piv :: ys` it stops inside `xs`. -/
theorem fnameSplit_append_pivot (piv : Char) (hd : isDelim piv = false)
    (hf : isFnameChar piv = false) (xs ys : List Char) :
    (fnameSplit (xs ++ piv :: ys)).2 = (fnameSplit xs).2 ++ piv :: ys := by
  show List.dropWhile isFnameChar (List.dropWhile isDelim (xs ++ piv :: ys)) =
    List.dropWhile isFnameChar (List.dropWhile isDelim xs) ++ piv :: ys
  rw [dropWhile_append_pivot isDelim piv hd xs ys,
    dropWhile_append_pivot isFnameChar piv hf (xs.dropWhile isDelim) ys]

/-- A nonempty suffix reached by the scan keeps the last byte, so the
"does not end in `>`" guard survives the induction. -/
theorem getLast_ne_of_suffix (c : Char) (l1 l2 : List Char) (hs : l1 <:+ l2)
    (h : (c :: l2).getLast? ≠ some '>') : l1.getLast? ≠ some '>' := by
  rcases l1 with _ | ⟨d, l1t⟩
  · simp
  · obtain ⟨t, rfl⟩ := hs
    intro hc
    apply h
    have h1 : (c :: (t ++ d :: l1t)).getLast? = (d :: l1t).getLast? := by
      rw [show c :: (t ++ d :: l1t) = (c :: t) ++ d :: l1t from by simp]
      exact List.getLast?_append_of_ne_nil (c :: t) (by simp)
    rw [h1]
    exact hc

/-- Scanning text without `<` never changes the recorded input file. -/
theorem redirScan_no_in_aux (n : Nat) :
    ∀ (cs : List Char), cs.length ≤ n → '<' ∉ cs →
      ∀ (cmd : List Char) (inf outf : Option String) (app : Bool),
        (redirScan cs cmd inf outf app).infile = inf := by
  induction n with
  | zero =>
    intro cs hlen _ cmd inf outf app
    have hnil : cs = [] := List.length_eq_zero.mp (Nat.le_zero.mp hlen)
    subst hnil
    simp [redirScan]
  | succ n ih =>
    intro cs hlen hmem cmd inf outf app
    rcases cs with _ | ⟨c, rest⟩
    · simp [redirScan]
    · have hlt : c ≠ '<' := by
        rintro rfl
        exact hmem (List.mem_cons_self _ _)
      have hrmem : '<' ∉ rest := fun hx => hmem (List.mem_cons_of_mem c hx)
      have hrlen : rest.length ≤ n := by
        simp only [List.length_cons] at hlen
        omega
      by_cases hgt : c = '>'
      · subst hgt
        rcases rest with _ | ⟨c2, rest2⟩
        · have heq : redirScan ['>'] cmd inf outf app =
              redirScan (fnameSplit []).2 cmd inf (some (fnameSplit []).1) false := by
            simp [redirScan]
          rw [heq]
          exact ih (fnameSplit []).2 (by simp [fnameSplit]) (by simp [fnameSplit]) _ _ _ _
        · by_cases h2 : c2 = '>'
          · subst h2
            have heq : redirScan ('>' :: '>' :: rest2) cmd inf outf app =
                redirScan (fnameSplit rest2).2 cmd inf (some (fnameSplit rest2).1) true := by
              simp [redirScan]
            rw [heq]
            refine ih (fnameSplit rest2).2 ?_ ?_ _ _ _ _
            · have := fnameSplit_rest_length rest2
              simp only [List.length_cons] at hrlen
              omega
            · intro hx
              exact hrmem (List.mem_cons_of_mem '>' (fnameSplit_mem rest2 '<' hx))
          · have heq : redirScan ('>' :: c2 :: rest2) cmd inf outf app =
                redirScan (fnameSplit (c2 :: rest2)).2 cmd inf
                  (some (fnameSplit (c2 :: rest2)).1) false := by
              simp [redirScan, h2]
            rw [heq]
            refine ih (fnameSplit (c2 :: rest2)).2 ?_ ?_ _ _ _ _
            · have := fnameSplit_rest_length (c2 :: rest2)
              omega
            · intro hx
              exact hrmem (fnameSplit_mem (c2 :: rest2) '<' hx)
      · have heq : redirScan (c :: rest) cmd inf outf app =
            redirScan rest (cmd ++ [c]) inf outf app := by
          simp [redirScan, hlt, hgt]
        rw [heq]
        exact ih rest hrlen hrmem _ _ _ _

theorem redirScan_no_in (cs : List Char) (h : '<' ∉ cs) (cmd : List Char)
    (inf outf : Option String) (app : Bool) :
    (redirScan cs cmd inf outf app).infile = inf :=
  redirScan_no_in_aux cs.length cs le_rfl h cmd inf outf app

/-- Scanning text without `>` never changes the recorded output file or
append flag. -/
theorem redirScan_no_out_aux (n : Nat) :
    ∀ (cs : List Char), cs.length ≤ n → '>' ∉ cs →
      ∀ (cmd : List Char) (inf outf : Option String) (app : Bool),
        (redirScan cs cmd inf outf app).outfile = outf ∧
        (redirScan cs cmd inf outf app).append = app := by
  induction n with
  | zero =>
    intro cs hlen _ cmd inf outf app
    have hnil : cs = [] := List.length_eq_zero.mp (Nat.le_zero.mp hlen)
    subst hnil
    simp [redirScan]
  | succ n ih =>
    intro cs hlen hmem cmd inf outf app
    rcases cs with _ | ⟨c, rest⟩
    · simp [redirScan]
    · have hgt : c ≠ '>' := by
        rintro rfl
        exact hmem (List.mem_cons_self _ _)
      have hrmem : '>' ∉ rest := fun hx => hmem (List.mem_cons_of_mem c hx)
      have hrlen : rest.length ≤ n := by
        simp only [List.length_cons] at hlen
        omega
      by_cases hlt : c = '<'
      · subst hlt
        have heq : redirScan ('<' :: rest) cmd inf outf app =
            redirScan (fnameSplit rest).2 cmd (some (fnameSplit rest).1) outf app := by
          simp [redirScan]
        rw [heq]
        refine ih (fnameSplit rest).2 ?_ ?_ _ _ _ _
        · have := fnameSplit_rest_length rest
          omega
        · intro hx
          exact hrmem (fnameSplit_mem rest '>' hx)
      · have heq : redirScan (c :: rest) cmd inf outf app =
            redirScan rest (cmd ++ [c]) inf outf app := by
          simp [redirScan, hlt, hgt]
        rw [heq]
        exact ih rest hrlen hrmem _ _ _ _

theorem redirScan_no_out (cs : List Char) (h : '>' ∉ cs) (cmd : List Char)
    (inf outf : Option String) (app : Bool) :
    (redirScan cs cmd inf outf app).outfile = outf ∧
    (redirScan cs cmd inf outf app).append = app :=
  redirScan_no_out_aux cs.length cs le_rfl h cmd inf outf app

/-- The left-to-right scan over `a ++ P`, where `P` starts with a
redirection operator, eventually reaches `redirScan P` in some state: no
step starting inside `a` can consume into `P`, except that a trailing `>`
of `a` would pair with a leading `>` of `P` — excluded by the guard. -/
theorem redirScan_skip_a (n : Nat) :
    ∀ (a P : List Char), a.length ≤ n →
      (P.head? = some '<' ∨ P.head? = some '>') →
      (a.getLast? ≠ some '>' ∨ P.head? = some '<') →
      ∀ (cmd : List Char) (inf outf : Option String) (app : Bool),
        ∃ (cmd2 : List Char) (inf2 outf2 : Option String) (app2 : Bool),
          redirScan (a ++ P) cmd inf outf app = redirScan P cmd2 inf2 outf2 app2 := by
  induction n with
  | zero =>
    intro a P hlen _ _ cmd inf outf app
    have hnil : a = [] := List.length_eq_zero.mp (Nat.le_zero.mp hlen)
    subst hnil
    exact ⟨cmd, inf, outf, app, by simp⟩
  | succ n ih =>
    intro a P hlen hP hguard cmd inf outf app
    obtain ⟨p, P', rfl, hp⟩ : ∃ p P', P = p :: P' ∧ (p = '<' ∨ p = '>') := by
      rcases P with _ | ⟨p, P'⟩
      · rcases hP with h | h <;> simp at h
      · rcases hP with h | h
        · exact ⟨p, P', rfl, Or.inl (by simpa using h)⟩
        · exact ⟨p, P', rfl, Or.inr (by simpa using h)⟩
    have hpd : isDelim p = false := by rcases hp with rfl | rfl <;> decide
    have hpf : isFnameChar p = false := by rcases hp with rfl | rfl <;> decide
    rcases a with _ | ⟨c, a1⟩
    · exact ⟨cmd, inf, outf, app, by simp⟩
    · have halen : a1.length ≤ n := by
        simp only [List.length_cons] at hlen
        omega
      by_cases hc : c = '<'
      · subst hc
        have heq : redirScan (('<' :: a1) ++ p :: P') cmd inf outf app =
            redirScan (fnameSplit (a1 ++ p :: P')).2 cmd
              (some (fnameSplit (a1 ++ p :: P')).1) outf app := by
          simp [redirScan]
        rw [heq, fnameSplit_append_pivot p hpd hpf a1 P']
        refine ih (fnameSplit a1).2 (p :: P') ?_ hP ?_ cmd _ outf app
        · have := fnameSplit_rest_length a1
          omega
        · rcases hguard with h | h
          · exact Or.inl (getLast_ne_of_suffix '<' (fnameSplit a1).2 a1
              (fnameSplit_suffix a1) h)
          · exact Or.inr h
      · by_cases hgtc : c = '>'
        · subst hgtc
          rcases a1 with _ | ⟨c2, a2⟩
          · rcases hguard with h | h
            · simp at h
            · have hpe : p = '<' := by simpa using h
              subst hpe
              have heq : redirScan (['>'] ++ '<' :: P') cmd inf outf app =
                  redirScan (fnameSplit ('<' :: P')).2 cmd inf
                    (some (fnameSplit ('<' :: P')).1) false := by
                simp [redirScan]
              have hfs : (fnameSplit ('<' :: P')).2 = '<' :: P' := by
                have hpv := fnameSplit_append_pivot '<' (by decide) (by decide) [] P'
                simpa [fnameSplit] using hpv
              exact ⟨cmd, inf, some (fnameSplit ('<' :: P')).1, false, by rw [heq, hfs]⟩
          · by_cases h2 : c2 = '>'
            · subst h2
              have heq : redirScan (('>' :: '>' :: a2) ++ p :: P') cmd inf outf app =
                  redirScan (fnameSplit (a2 ++ p :: P')).2 cmd inf
                    (some (fnameSplit (a2 ++ p :: P')).1) true := by
                simp [redirScan]
              rw [heq, fnameSplit_append_pivot p hpd hpf a2 P']
              refine ih (fnameSplit a2).2 (p :: P') ?_ hP ?_ cmd inf _ true
              · have := fnameSplit_rest_length a2
                simp only [List.length_cons] at halen
                omega
              · rcases hguard with h | h
                · refine Or.inl (getLast_ne_of_suffix '>' (fnameSplit a2).2 ('>' :: a2)
                    ((fnameSplit_suffix a2).trans (List.suffix_cons '>' a2)) h)
                · exact Or.inr h
            · have heq : redirScan (('>' :: c2 :: a2) ++ p :: P') cmd inf outf app =
                  redirScan (fnameSplit ((c2 :: a2) ++ p :: P')).2 cmd inf
                    (some (fnameSplit ((c2 :: a2) ++ p :: P')).1) false := by
                simp [redirScan, h2]
              rw [heq, fnameSplit_append_pivot p hpd hpf (c2 :: a2) P']
              refine ih (fnameSplit (c2 :: a2)).2 (p :: P') ?_ hP ?_ cmd inf _ false
              · have := fnameSplit_rest_length (c2 :: a2)
                omega
              · rcases hguard with h | h
                · exact Or.inl (getLast_ne_of_suffix '>' (fnameSplit (c2 :: a2)).2
                    (c2 :: a2) (fnameSplit_suffix (c2 :: a2)) h)
                · exact Or.inr h
        · have heq : redirScan ((c :: a1) ++ p :: P') cmd inf outf app =
              redirScan (a1 ++ p :: P') (cmd ++ [c]) inf outf app := by
            simp [redirScan, hc, hgtc]
          rw [heq]
          refine ih a1 (p :: P') halen hP ?_ (cmd ++ [c]) inf outf app
          rcases hguard with h | h
          · exact Or.inl (getLast_ne_of_suffix c a1 a1 List.suffix_rfl h)
          · exact Or.inr h

/-- The filename after the LAST `<` of a segment becomes the infile. -/
theorem redirScan_last_in (a b : List Char) (hb : '<' ∉ b)
    (cmd : List Char) (inf outf : Option String) (app : Bool) :
    (redirScan (a ++ '<' :: b) cmd inf outf app).infile = some (fnameSplit b).1 := by
  obtain ⟨c2, i2, o2, a2, heq⟩ :=
    redirScan_skip_a a.length a ('<' :: b) le_rfl (Or.inl rfl) (Or.inr rfl)
      cmd inf outf app
  rw [heq]
  have hE : redirScan ('<' :: b) c2 i2 o2 a2 =
      redirScan (fnameSplit b).2 c2 (some (fnameSplit b).1) o2 a2 := by
    simp [redirScan]
  rw [hE]
  exact redirScan_no_in (fnameSplit b).2 (fun hx => hb (fnameSplit_mem b '<' hx)) _ _ _ _

/-- The filename after a final `>>` becomes the outfile, with append. -/
theorem redirScan_last_out_append (a b : List Char) (hb : '>' ∉ b)
    (hl : a.getLast? ≠ some '>')
    (cmd : List Char) (inf outf : Option String) (app : Bool) :
    (redirScan (a ++ '>' :: '>' :: b) cmd inf outf app).outfile =
        some (fnameSplit b).1 ∧
    (redirScan (a ++ '>' :: '>' :: b) cmd inf outf app).append = true := by
  obtain ⟨c2, i2, o2, a2, heq⟩ :=
    redirScan_skip_a a.length a ('>' :: '>' :: b) le_rfl (Or.inr rfl) (Or.inl hl)
      cmd inf outf app
  rw [heq]
  have hE : redirScan ('>' :: '>' :: b) c2 i2 o2 a2 =
      redirScan (fnameSplit b).2 c2 i2 (some (fnameSplit b).1) true := by
    simp [redirScan]
  rw [hE]
  exact redirScan_no_out (fnameSplit b).2 (fun hx => hb (fnameSplit_mem b '>' hx)) _ _ _ _

/-- The filename after a final single `>` becomes the outfile, truncating. -/
theorem redirScan_last_out_single (a b : List Char) (hb : '>' ∉ b)
    (hl : a.getLast? ≠ some '>')
    (cmd : List Char) (inf outf : Option String) (app : Bool) :
    (redirScan (a ++ '>' :: b) cmd inf outf app).outfile = some (fnameSplit b).1 ∧
    (redirScan (a ++ '>' :: b) cmd inf outf app).append = false := by
  obtain ⟨c2, i2, o2, a2, heq⟩ :=
    redirScan_skip_a a.length a ('>' :: b) le_rfl (Or.inr rfl) (Or.inl hl)
      cmd inf outf app
  rw [heq]
  rcases b with _ | ⟨c3, b2⟩
  · have hE : redirScan ['>'] c2 i2 o2 a2 =
        redirScan (fnameSplit []).2 c2 i2 (some (fnameSplit []).1) false := by
      simp [redirScan]
    rw [hE]
    exact redirScan_no_out (fnameSplit []).2 (by simp [fnameSplit]) _ _ _ _
  · have hc3 : c3 ≠ '>' := by
      rintro rfl
      exact hb (List.mem_cons_self _ _)
    have hE : redirScan ('>' :: c3 :: b2) c2 i2 o2 a2 =
        redirScan (fnameSplit (c3 :: b2)).2 c2 i2
          (some (fnameSplit (c3 :: b2)).1) false := by
      simp [redirScan, hc3]
    rw [hE]
    exact redirScan_no_out (fnameSplit (c3 :: b2)).2
      (fun hx => hb (fnameSplit_mem (c3 :: b2) '>' hx)) _ _ _ _

/-- C8: within a pipe-separated segment the scan runs left to right over
`<`, `>` and `>>`, the token after each operator (delimited by whitespace
or another operator) is the associated path, and the last redirection of a
stream wins: writing the (trimmed, 1023-byte-truncated) segment as
`a ++ < :: b` with no `<` in `b`, the Command's infile is the filename at
the head of `b`; writing it as `a ++ >> :: b` (resp. `a ++ > :: b`) with
no `>` in `b` and `a` not ending in `>` (so the operator is scanned as
written), the outfile is the filename at the head of `b` and the append
flag is that of this last output operator. -/
theorem c8_last_redirection_wins (dir : List String) (bg : Bool)
    (seg1 seg2 seg3 a1 b1 a2 b2 a3 b3 : List Char)
    (h1 : (trimChars seg1).take 1023 = a1 ++ '<' :: b1) (hb1 : '<' ∉ b1)
    (h2 : (trimChars seg2).take 1023 = a2 ++ '>' :: '>' :: b2) (hb2 : '>' ∉ b2)
    (hl2 : a2.getLast? ≠ some '>')
    (h3 : (trimChars seg3).take 1023 = a3 ++ '>' :: b3) (hb3 : '>' ∉ b3)
    (hl3 : a3.getLast? ≠ some '>') :
    (parseSegment dir bg seg1).infile = some (fnameSplit b1).1 ∧
    (parseSegment dir bg seg2).outfile = some (fnameSplit b2).1 ∧
    (parseSegment dir bg seg2).append = true ∧
    (parseSegment dir bg seg3).outfile = some (fnameSplit b3).1 ∧
    (parseSegment dir bg seg3).append = false := by
  have hA := redirScan_last_in a1 b1 hb1 [] none none false
  have hB := redirScan_last_out_append a2 b2 hb2 hl2 [] none none false
  have hC := redirScan_last_out_single a3 b3 hb3 hl3 [] none none false
  refine ⟨?_, ?_, ?_, ?_, ?_⟩ <;> simp only [parseSegment]
  · rw [h1]; exact hA
  · rw [h2]; exact hB.1
  · rw [h2]; exact hB.2
  · rw [h3]; exact hC.1
  · rw [h3]; exact hC.2

/-- C8, witness: `echo < f1 < f2`, `echo > o1 >> o2`, `echo >> o1 > o2`. -/
theorem c8_last_redirection_wins_witness :
    (parseSegment [] false "echo < f1 < f2".toList).infile =
        some (fnameSplit " f2".toList).1 ∧
    (parseSegment [] false "echo > o1 >> o2".toList).outfile =
        some (fnameSplit " o2".toList).1 ∧
    (parseSegment [] false "echo > o1 >> o2".toList).append = true ∧
    (parseSegment [] false "echo >> o1 > o2".toList).outfile =
        some (fnameSplit " o2".toList).1 ∧
    (parseSegment [] false "echo >> o1 > o2".toList).append = false :=
  c8_last_redirection_wins [] false
    "echo < f1 < f2".toList "echo > o1 >> o2".toList "echo >> o1 > o2".toList
    "echo < f1 ".toList " f2".toList
    "echo > o1 ".toList " o2".toList
    "echo >> o1 ".toList " o2".toList
    (by decide) (by decide) (by decide) (by decide) (by decide)
    (by decide) (by decide) (by decide)

end UShell
